import Mathlib

/-!
Verification of the hierarchical filter engine of the BleachBit
next-generation GUI prototype (`bleachbit_gui.py`).

The only nontrivial logic in the program is the visibility predicate
`on_search_changed_filter` that the options `TreeView` evaluates for every
row of its two-level tree (category → item) whenever the search term
changes.  We embed the two-level tree, the GTK tree-model accessors the
callback uses, and the callback itself, and prove the specified
properties about them.

Python strings are modelled as `List Char`; `str.lower()` becomes a
character-wise `Char.toLower` map and `a.find(b) != -1` becomes the
substring test `findSub b a`.
-/

/-- Model of a Python string: a sequence of characters. -/
abbrev PyStr := List Char

/-- Model of `str.lower()`: lowercase every character. -/
def lower (s : PyStr) : PyStr := s.map Char.toLower

/-- `isPrefixC pat s` is true when `pat` is a prefix of `s`. -/
def isPrefixC : PyStr → PyStr → Bool
  | [], _ => true
  | _ :: _, [] => false
  | a :: as, b :: bs => a == b && isPrefixC as bs

/-- Model of `s.find(pat) != -1`: `pat` occurs in `s` as a contiguous
substring.  The empty pattern is found in every string, as in Python. -/
def findSub (pat : PyStr) : PyStr → Bool
  | [] => pat.isEmpty
  | c :: rest => isPrefixC pat (c :: rest) || findSub pat rest

/-- The matching test of the source, line 153/159/165:
`label.lower().find(term.lower()) != -1`. -/
def matchesTerm (term label : PyStr) : Bool :=
  findSub (lower term) (lower label)

/-- A leaf row of the options `TreeStore` (columns `str, bool`). -/
structure LeafNode where
  label : PyStr
  enabled : Bool
deriving DecidableEq

/-- A root row of the options `TreeStore` together with its children.
The tree built by `populate_options_pane` has exactly two levels. -/
structure OptionNode where
  label : PyStr
  enabled : Bool
  children : List LeafNode
deriving DecidableEq

/-- The whole options tree: the ordered list of root rows. -/
abbrev OptionsTree := List OptionNode

/-- A `Gtk.TreeIter` into a two-level store: either the `i`-th root or
the `j`-th child of the `i`-th root. -/
inductive NodeRef where
  | root (i : Nat)
  | child (i : Nat) (j : Nat)
deriving DecidableEq

/-- Whether a `NodeRef` designates an existing row of the tree.  GTK only
hands the filter callback valid iterators. -/
def validRef (tree : OptionsTree) : NodeRef → Bool
  | .root i => i < tree.length
  | .child i j =>
    match tree.get? i with
    | some c => j < c.children.length
    | none => false

/-- Model of `model.get_value(iter, 0)`: the label of the row. -/
def getValue (tree : OptionsTree) : NodeRef → Option PyStr
  | .root i => (tree.get? i).map OptionNode.label
  | .child i j =>
    (tree.get? i).bind fun c => (c.children.get? j).map LeafNode.label

/-- Model of `model.iter_parent(iter)` on a two-level store: a child's
parent is its root; a root has none. -/
def iterParent : NodeRef → Option NodeRef
  | .root _ => none
  | .child i _ => some (.root i)

/-- Labels enumerated by the `iter_children` / `iter_next` loop of
lines 162–167: all child labels of a root, none for a leaf. -/
def childLabels (tree : OptionsTree) : NodeRef → List PyStr
  | .root i =>
    match tree.get? i with
    | some c => c.children.map LeafNode.label
    | none => []
  | .child _ _ => []

/-- Embedding of `on_search_changed_filter` (lines 136–168).  `none` only
when the iterator does not designate a row (GTK never does that); for a
valid row it returns `some` of the row's visibility. -/
def on_search_changed_filter (tree : OptionsTree) (iter : NodeRef)
    (search_entry_text : PyStr) : Option Bool :=
  match getValue tree iter with
  | none => none
  | some current_row =>
    if search_entry_text.isEmpty then some true
    else if matchesTerm search_entry_text current_row then some true
    else
      let parent_hit : Bool :=
        match iterParent iter with
        | none => false
        | some p =>
          match getValue tree p with
          | none => false
          | some parent_name => matchesTerm search_entry_text parent_name
      if parent_hit then some true
      else
        some ((childLabels tree iter).any fun child_name =>
          matchesTerm search_entry_text child_name)

/-- The spec's name for the contract of §4.1. -/
def is_visible (tree : OptionsTree) (node : NodeRef) (search_term : PyStr) :
    Option Bool :=
  on_search_changed_filter tree node search_term

/-- Rule 1 of the spec's visibility rule: the node's own label matches. -/
def selfMatch (tree : OptionsTree) (n : NodeRef) (s : PyStr) : Bool :=
  match getValue tree n with
  | some l => matchesTerm s l
  | none => false

/-- Rule 2: the node has a parent and the parent's label matches. -/
def parentMatch (tree : OptionsTree) (n : NodeRef) (s : PyStr) : Bool :=
  match iterParent n with
  | some p => selfMatch tree p s
  | none => false

/-- Rule 3: some child's label matches. -/
def childMatch (tree : OptionsTree) (n : NodeRef) (s : PyStr) : Bool :=
  (childLabels tree n).any fun l => matchesTerm s l

/-- The labels-only content of a tree: everything the filter may read.
Forgets every `enabled` flag. -/
def stripEnabled (tree : OptionsTree) : List (PyStr × List PyStr) :=
  tree.map fun c => (c.label, c.children.map LeafNode.label)

/-- State-passing rendering of the callback: every tree-model primitive
the source calls (`get_value`, `iter_parent`, `iter_children`,
`iter_next`) is a read, so each step returns the store it was given; the
composite returns the result together with the final store. -/
def on_search_changed_filter_run (tree : OptionsTree) (iter : NodeRef)
    (search_entry_text : PyStr) : Option Bool × OptionsTree :=
  let (v, tree) := (getValue tree iter, tree)
  match v with
  | none => (none, tree)
  | some current_row =>
    if search_entry_text.isEmpty then (some true, tree)
    else if matchesTerm search_entry_text current_row then (some true, tree)
    else
      let (p, tree) := (iterParent iter, tree)
      let (parent_hit, tree) : Bool × OptionsTree :=
        match p with
        | none => (false, tree)
        | some p =>
          let (pv, tree) := (getValue tree p, tree)
          match pv with
          | none => (false, tree)
          | some parent_name => (matchesTerm search_entry_text parent_name, tree)
      if parent_hit then (some true, tree)
      else
        let (ls, tree) := (childLabels tree iter, tree)
        (some (ls.any fun child_name =>
          matchesTerm search_entry_text child_name), tree)

/-- The sample two-level catalogue shape used throughout the spec's §8
examples (a browser with two items, a childless category). -/
def sampleTree : OptionsTree :=
  [ { label := "Firefox".data, enabled := true,
      children := [⟨"Cache".data, true⟩, ⟨"History".data, true⟩] },
    { label := "System".data, enabled := true, children := [] } ]

/-- A second sample tree equal to `sampleTree` except in its `enabled`
flags, for the noninterference witness. -/
def sampleTreeDisabled : OptionsTree :=
  [ { label := "Firefox".data, enabled := false,
      children := [⟨"Cache".data, false⟩, ⟨"History".data, true⟩] },
    { label := "System".data, enabled := false, children := [] } ]

/-- The childless "System" category of `sampleTree`. -/
def systemNode : OptionNode :=
  { label := "System".data, enabled := true, children := [] }

theorem isPrefixC_iff (pat s : PyStr) :
    isPrefixC pat s = true ↔ ∃ r, s = pat ++ r := by
  induction pat generalizing s with
  | nil => simp [isPrefixC]
  | cons a as ih =>
    cases s with
    | nil => simp [isPrefixC]
    | cons b bs =>
      simp only [isPrefixC, Bool.and_eq_true, beq_iff_eq, ih,
        List.cons_append, List.cons.injEq]
      constructor
      · rintro ⟨hab, r, hr⟩
        exact ⟨r, hab.symm, hr⟩
      · rintro ⟨r, hba, hr⟩
        exact ⟨hba.symm, r, hr⟩

theorem findSub_iff (pat s : PyStr) :
    findSub pat s = true ↔ ∃ l r, s = l ++ pat ++ r := by
  induction s with
  | nil =>
    cases pat with
    | nil => simp [findSub]
    | cons a as => simp [findSub]
  | cons c cs ih =>
    simp only [findSub, Bool.or_eq_true, isPrefixC_iff, ih]
    constructor
    · rintro (⟨r, hr⟩ | ⟨l, r, hr⟩)
      · exact ⟨[], r, by simp [hr]⟩
      · exact ⟨c :: l, r, by simp [hr]⟩
    · rintro ⟨l, r, hr⟩
      cases l with
      | nil => exact .inl ⟨r, by simpa using hr⟩
      | cons x xs =>
        simp only [List.cons_append, List.cons.injEq] at hr
        exact .inr ⟨xs, r, hr.2⟩

theorem findSub_nil (s : PyStr) : findSub [] s = true := by
  cases s <;> simp [findSub, isPrefixC]

theorem findSub_trans {a b c : PyStr} (h1 : findSub a b = true)
    (h2 : findSub b c = true) : findSub a c = true := by
  rw [findSub_iff] at *
  obtain ⟨l1, r1, hb⟩ := h1
  obtain ⟨l2, r2, hc⟩ := h2
  exact ⟨l2 ++ l1, r1 ++ r2, by subst hb; subst hc; simp [List.append_assoc]⟩

theorem findSub_map (f : Char → Char) {a b : PyStr} (h : findSub a b = true) :
    findSub (a.map f) (b.map f) = true := by
  rw [findSub_iff] at *
  obtain ⟨l, r, hb⟩ := h
  exact ⟨l.map f, r.map f, by subst hb; simp⟩

theorem matchesTerm_mono {s t l : PyStr} (hst : findSub s t = true)
    (h : matchesTerm t l = true) : matchesTerm s l = true := by
  unfold matchesTerm lower at *
  exact findSub_trans (findSub_map Char.toLower hst) h

theorem matchesTerm_nil (l : PyStr) : matchesTerm [] l = true := by
  unfold matchesTerm lower
  simpa using findSub_nil (l.map Char.toLower)

theorem getValue_of_valid {tree : OptionsTree} {n : NodeRef}
    (h : validRef tree n = true) : ∃ l, getValue tree n = some l := by
  cases n with
  | root i =>
    cases htree : tree.get? i with
    | none =>
      simp only [validRef, decide_eq_true_eq] at h
      rw [List.get?_eq_none] at htree
      omega
    | some c =>
      refine ⟨c.label, ?_⟩
      show (tree.get? i).map OptionNode.label = some c.label
      rw [htree]; rfl
  | child i j =>
    simp only [validRef] at h
    cases htree : tree.get? i with
    | none => rw [htree] at h; simp at h
    | some c =>
      rw [htree] at h
      simp only [decide_eq_true_eq] at h
      cases hch : c.children.get? j with
      | none => rw [List.get?_eq_none] at hch; omega
      | some leaf =>
        refine ⟨leaf.label, ?_⟩
        show ((tree.get? i).bind fun c =>
          (c.children.get? j).map LeafNode.label) = some leaf.label
        rw [htree]
        show (c.children.get? j).map LeafNode.label = some leaf.label
        rw [hch]; rfl

theorem filter_empty {tree : OptionsTree} {n : NodeRef} {l : PyStr}
    (hl : getValue tree n = some l) {s : PyStr} (hse : s.isEmpty = true) :
    on_search_changed_filter tree n s = some true := by
  unfold on_search_changed_filter
  rw [hl]
  simp only [hse, if_true]

theorem filter_spec {tree : OptionsTree} {n : NodeRef} {l : PyStr} {s : PyStr}
    (hl : getValue tree n = some l) (hse : s.isEmpty = false) :
    on_search_changed_filter tree n s =
      some (matchesTerm s l || parentMatch tree n s || childMatch tree n s) := by
  unfold on_search_changed_filter
  rw [hl]
  simp only [hse, Bool.false_eq_true, if_false]
  cases hm : matchesTerm s l with
  | true => simp
  | false =>
    simp only [Bool.false_eq_true, if_false, Bool.false_or]
    have hp : (match iterParent n with
        | none => false
        | some p =>
          match getValue tree p with
          | none => false
          | some parent_name => matchesTerm s parent_name) = parentMatch tree n s := by
      cases n with
      | root i => rfl
      | child i j =>
        show (match getValue tree (.root i) with
          | none => false
          | some parent_name => matchesTerm s parent_name) = selfMatch tree (.root i) s
        cases hg : getValue tree (.root i) <;> simp [selfMatch, hg]
    rw [hp]
    cases hpm : parentMatch tree n s with
    | true => simp
    | false => simp [childMatch]

theorem run_snd (tree : OptionsTree) (n : NodeRef) (s : PyStr) :
    (on_search_changed_filter_run tree n s).2 = tree := by
  unfold on_search_changed_filter_run
  cases hg : getValue tree n with
  | none => rfl
  | some l =>
    simp only []
    split
    · rfl
    · split
      · rfl
      · cases hp : iterParent n with
        | none => split <;> rfl
        | some p =>
          cases hgp : getValue tree p <;> simp only [hgp] <;> split <;> rfl

theorem run_fst (tree : OptionsTree) (n : NodeRef) (s : PyStr) :
    (on_search_changed_filter_run tree n s).1 = on_search_changed_filter tree n s := by
  unfold on_search_changed_filter_run on_search_changed_filter
  cases hg : getValue tree n with
  | none => rfl
  | some l =>
    simp only []
    split
    · rfl
    · split
      · rfl
      · cases hp : iterParent n with
        | none => split <;> rfl
        | some p =>
          cases hgp : getValue tree p <;> simp only [hgp] <;> split <;> rfl

theorem selfMatch_mono {tree : OptionsTree} {n : NodeRef} {s t : PyStr}
    (hst : findSub s t = true) (h : selfMatch tree n t = true) :
    selfMatch tree n s = true := by
  unfold selfMatch at *
  cases hg : getValue tree n with
  | none => rw [hg] at h; exact h
  | some l => rw [hg] at h; exact matchesTerm_mono hst h

theorem parentMatch_mono {tree : OptionsTree} {n : NodeRef} {s t : PyStr}
    (hst : findSub s t = true) (h : parentMatch tree n t = true) :
    parentMatch tree n s = true := by
  unfold parentMatch at *
  cases hp : iterParent n with
  | none => rw [hp] at h; exact h
  | some p => rw [hp] at h; exact selfMatch_mono hst h

theorem childMatch_mono {tree : OptionsTree} {n : NodeRef} {s t : PyStr}
    (hst : findSub s t = true) (h : childMatch tree n t = true) :
    childMatch tree n s = true := by
  unfold childMatch at *
  simp only [List.any_eq_true] at h ⊢
  obtain ⟨x, hx, hm⟩ := h
  exact ⟨x, hx, matchesTerm_mono hst hm⟩

/-- C1: for every two-level tree and every non-empty search term, a valid
node is visible exactly when its own label matches, or its parent's label
matches, or some child's label matches, checked in this order. -/
theorem visibility_three_way_rule (tree : OptionsTree) (n : NodeRef) (s : PyStr)
    (hs : s ≠ []) (hv : validRef tree n = true) :
    on_search_changed_filter tree n s =
      some (selfMatch tree n s || parentMatch tree n s || childMatch tree n s) := by
  obtain ⟨l, hl⟩ := getValue_of_valid hv
  have hse : s.isEmpty = false := by
    cases s with
    | nil => exact absurd rfl hs
    | cons a as => rfl
  rw [filter_spec hl hse]
  have hself : selfMatch tree n s = matchesTerm s l := by simp [selfMatch, hl]
  rw [hself]

theorem visibility_three_way_rule_witness :
    "cache".data ≠ [] ∧ validRef sampleTree (.root 0) = true ∧
      on_search_changed_filter sampleTree (.root 0) "cache".data =
        some (selfMatch sampleTree (.root 0) "cache".data ||
          parentMatch sampleTree (.root 0) "cache".data ||
          childMatch sampleTree (.root 0) "cache".data) :=
  ⟨by decide, by decide,
    visibility_three_way_rule sampleTree (.root 0) "cache".data
      (by decide) (by decide)⟩

/-- C2: for every valid node of every two-level tree, the empty search
term yields visibility true (no filtering). -/
theorem empty_search_shows_all (tree : OptionsTree) (n : NodeRef)
    (hv : validRef tree n = true) :
    on_search_changed_filter tree n [] = some true := by
  obtain ⟨l, hl⟩ := getValue_of_valid hv
  exact filter_empty hl (show ([] : PyStr).isEmpty = true from rfl)

theorem empty_search_shows_all_witness :
    validRef sampleTree (.child 0 1) = true ∧
      on_search_changed_filter sampleTree (.child 0 1) [] = some true :=
  ⟨by decide, empty_search_shows_all sampleTree (.child 0 1) (by decide)⟩

/-- C3: visibility is case-insensitive: two search terms with the same
lower-casing (e.g. "CACHE" and "cache") give identical results on every
node of every tree. -/
theorem search_case_insensitive (tree : OptionsTree) (n : NodeRef) {s t : PyStr}
    (h : lower s = lower t) :
    on_search_changed_filter tree n s = on_search_changed_filter tree n t := by
  have hm : ∀ l, matchesTerm s l = matchesTerm t l := fun l => by
    unfold matchesTerm
    rw [h]
  have he : s.isEmpty = t.isEmpty := by
    cases s <;> cases t <;> simp_all [lower]
  unfold on_search_changed_filter
  cases getValue tree n with
  | none => rfl
  | some l => simp only [hm, he]

theorem search_case_insensitive_witness :
    lower "CACHE".data = lower "cache".data ∧
      on_search_changed_filter sampleTree (.root 0) "CACHE".data =
        on_search_changed_filter sampleTree (.root 0) "cache".data :=
  ⟨by decide, search_case_insensitive sampleTree (.root 0) (by decide)⟩

/-- C4: a category with zero children is visible exactly when its own
label matches the search term, for every term including the empty one. -/
theorem childless_category_visible_iff_self_match (tree : OptionsTree) (i : Nat)
    (c : OptionNode) (s : PyStr) (hc : tree.get? i = some c)
    (hnc : c.children = []) :
    on_search_changed_filter tree (.root i) s = some (matchesTerm s c.label) := by
  have hl : getValue tree (.root i) = some c.label := by
    show (tree.get? i).map OptionNode.label = some c.label
    rw [hc]; rfl
  cases hse : s.isEmpty with
  | true =>
    have hs : s = [] := by cases s <;> simp_all
    subst hs
    rw [filter_empty hl (show ([] : PyStr).isEmpty = true from rfl), matchesTerm_nil]
  | false =>
    rw [filter_spec hl hse]
    have h1 : parentMatch tree (.root i) s = false := rfl
    have h2 : childMatch tree (.root i) s = false := by
      unfold childMatch
      show ((match tree.get? i with
        | some c => c.children.map LeafNode.label
        | none => []).any fun l => matchesTerm s l) = false
      rw [hc]
      show ((c.children.map LeafNode.label).any fun l => matchesTerm s l) = false
      rw [hnc]
      rfl
    rw [h1, h2]
    simp

theorem stripNode_get {t1 t2 : OptionsTree} (h : stripEnabled t1 = stripEnabled t2)
    (i : Nat) :
    Option.map (fun c => (c.label, c.children.map LeafNode.label)) (t1.get? i) =
      Option.map (fun c => (c.label, c.children.map LeafNode.label)) (t2.get? i) := by
  have h2 := congrArg (fun l => List.get? l i) h
  simp only [stripEnabled, List.get?_map] at h2
  exact h2

theorem getValue_strip {t1 t2 : OptionsTree} (h : stripEnabled t1 = stripEnabled t2)
    (n : NodeRef) : getValue t1 n = getValue t2 n := by
  cases n with
  | root i =>
    have h2 := stripNode_get h i
    show (t1.get? i).map OptionNode.label = (t2.get? i).map OptionNode.label
    cases h1 : t1.get? i <;> cases hh : t2.get? i <;> rw [h1, hh] at h2 <;> simp_all
  | child i j =>
    have h2 := stripNode_get h i
    show ((t1.get? i).bind fun c => (c.children.get? j).map LeafNode.label) =
      ((t2.get? i).bind fun c => (c.children.get? j).map LeafNode.label)
    cases h1 : t1.get? i with
    | none =>
      cases hh : t2.get? i with
      | none => rfl
      | some c2 => rw [h1, hh] at h2; simp at h2
    | some c1 =>
      cases hh : t2.get? i with
      | none => rw [h1, hh] at h2; simp at h2
      | some c2 =>
        rw [h1, hh] at h2
        simp only [Option.map_some', Option.some.injEq, Prod.mk.injEq] at h2
        show (c1.children.get? j).map LeafNode.label =
          (c2.children.get? j).map LeafNode.label
        rw [← List.get?_map, ← List.get?_map, h2.2]

theorem childLabels_strip {t1 t2 : OptionsTree} (h : stripEnabled t1 = stripEnabled t2)
    (n : NodeRef) : childLabels t1 n = childLabels t2 n := by
  cases n with
  | child i j => rfl
  | root i =>
    have h2 := stripNode_get h i
    show (match t1.get? i with
      | some c => c.children.map LeafNode.label
      | none => []) =
      (match t2.get? i with
      | some c => c.children.map LeafNode.label
      | none => [])
    cases h1 : t1.get? i <;> cases hh : t2.get? i <;> rw [h1, hh] at h2 <;> simp_all

/-- C5: the filter's output never depends on the `enabled` flags: two
trees with the same labels and shape but arbitrary `enabled` flags give
identical visibility for every node and term. -/
theorem enabled_flags_noninterference (t1 t2 : OptionsTree)
    (h : stripEnabled t1 = stripEnabled t2) (n : NodeRef) (s : PyStr) :
    on_search_changed_filter t1 n s = on_search_changed_filter t2 n s := by
  have hg : ∀ m, getValue t1 m = getValue t2 m := getValue_strip h
  have hcl : ∀ m, childLabels t1 m = childLabels t2 m := childLabels_strip h
  unfold on_search_changed_filter
  simp only [hg, hcl]

theorem enabled_flags_noninterference_witness :
    stripEnabled sampleTree = stripEnabled sampleTreeDisabled ∧
      on_search_changed_filter sampleTree (.root 0) "cache".data =
        on_search_changed_filter sampleTreeDisabled (.root 0) "cache".data :=
  ⟨by decide,
    enabled_flags_noninterference sampleTree sampleTreeDisabled (by decide)
      (.root 0) "cache".data⟩

/-- C6: the filter is deterministic and idempotent: running it a second
time on the store left by a first run gives the same result and the same
store, and the result is the pure function of (tree, node, term). -/
theorem filter_idempotent_pure (tree : OptionsTree) (n : NodeRef) (s : PyStr) :
    (on_search_changed_filter_run ((on_search_changed_filter_run tree n s).2) n s).1 =
      (on_search_changed_filter_run tree n s).1 ∧
    (on_search_changed_filter_run ((on_search_changed_filter_run tree n s).2) n s).2 =
      (on_search_changed_filter_run tree n s).2 ∧
    (on_search_changed_filter_run tree n s).1 = on_search_changed_filter tree n s := by
  rw [run_snd tree n s]
  exact ⟨rfl, run_snd tree n s, run_fst tree n s⟩

/-- C7: evaluating the filter leaves the tree untouched: the store after
the call is the store before it, so every label, `enabled` flag, child
list and parent link is unchanged. -/
theorem filter_no_side_effects (tree : OptionsTree) (n : NodeRef) (s : PyStr) :
    (on_search_changed_filter_run tree n s).2 = tree :=
  run_snd tree n s

/-- C8: the filter is total: on every valid node of a two-level tree and
every search term (the empty one included) it returns a boolean. -/
theorem filter_total_on_valid_nodes (tree : OptionsTree) (n : NodeRef) (s : PyStr)
    (hv : validRef tree n = true) :
    ∃ b : Bool, on_search_changed_filter tree n s = some b := by
  obtain ⟨l, hl⟩ := getValue_of_valid hv
  cases hse : s.isEmpty with
  | true => exact ⟨true, filter_empty hl hse⟩
  | false => exact ⟨_, filter_spec hl hse⟩

theorem filter_total_on_valid_nodes_witness :
    validRef sampleTree (.root 0) = true ∧
      ∃ b : Bool, on_search_changed_filter sampleTree (.root 0) "xyz".data = some b :=
  ⟨by decide, filter_total_on_valid_nodes sampleTree (.root 0) "xyz".data (by decide)⟩

/-- C9: the filtered view is a well-formed tree: whenever a leaf is
visible, its parent category is visible too — no visible leaf is
orphaned. -/
theorem visible_leaf_has_visible_parent (tree : OptionsTree) (i j : Nat) (s : PyStr)
    (hv : validRef tree (.child i j) = true)
    (hvis : on_search_changed_filter tree (.child i j) s = some true) :
    on_search_changed_filter tree (.root i) s = some true := by
  have hv' := hv
  simp only [validRef] at hv'
  cases hc : tree.get? i with
  | none => rw [hc] at hv'; simp at hv'
  | some c =>
    rw [hc] at hv'
    simp only [decide_eq_true_eq] at hv'
    cases hleaf : c.children.get? j with
    | none => rw [List.get?_eq_none] at hleaf; omega
    | some leaf =>
      have hlc : getValue tree (.child i j) = some leaf.label := by
        show ((tree.get? i).bind fun c => (c.children.get? j).map LeafNode.label) =
          some leaf.label
        rw [hc]
        show (c.children.get? j).map LeafNode.label = some leaf.label
        rw [hleaf]; rfl
      have hlr : getValue tree (.root i) = some c.label := by
        show (tree.get? i).map OptionNode.label = some c.label
        rw [hc]; rfl
      cases hse : s.isEmpty with
      | true => exact filter_empty hlr hse
      | false =>
        rw [filter_spec hlc hse] at hvis
        rw [filter_spec hlr hse]
        have hpm : parentMatch tree (.child i j) s = matchesTerm s c.label := by
          show selfMatch tree (.root i) s = matchesTerm s c.label
          unfold selfMatch
          rw [hlr]
        have hcm : childMatch tree (.child i j) s = false := rfl
        rw [hpm, hcm] at hvis
        simp only [Option.some.injEq, Bool.or_false, Bool.or_eq_true] at hvis
        rcases hvis with hm | hm
        · have hch : childMatch tree (.root i) s = true := by
            unfold childMatch
            show ((match tree.get? i with
              | some c => c.children.map LeafNode.label
              | none => []).any fun l => matchesTerm s l) = true
            rw [hc]
            show ((c.children.map LeafNode.label).any fun l => matchesTerm s l) = true
            simp only [List.any_eq_true, List.mem_map]
            exact ⟨leaf.label, ⟨leaf, List.get?_mem hleaf, rfl⟩, hm⟩
          rw [hch]
          simp
        · rw [hm]
          simp

theorem visible_leaf_has_visible_parent_witness :
    validRef sampleTree (.child 0 0) = true ∧
      on_search_changed_filter sampleTree (.child 0 0) "cache".data = some true ∧
      on_search_changed_filter sampleTree (.root 0) "cache".data = some true :=
  ⟨by decide, by decide,
    visible_leaf_has_visible_parent sampleTree 0 0 "cache".data
      (by decide) (by decide)⟩

/-- C10: visibility is antitone in the search term: if a term `t` keeps a
node visible and `s` occurs in `t` as a substring, the shorter term `s`
keeps it visible as well — extending the term can only hide rows. -/
theorem visibility_antitone_in_search_term (tree : OptionsTree) (n : NodeRef)
    (s t : PyStr) (hst : findSub s t = true) (hv : validRef tree n = true)
    (ht : on_search_changed_filter tree n t = some true) :
    on_search_changed_filter tree n s = some true := by
  obtain ⟨l, hl⟩ := getValue_of_valid hv
  cases hse : s.isEmpty with
  | true => exact filter_empty hl hse
  | false =>
    have hte : t.isEmpty = false := by
      cases t with
      | nil =>
        simp only [findSub] at hst
        rw [hst] at hse
        simp at hse
      | cons b bs => rfl
    rw [filter_spec hl hte] at ht
    rw [filter_spec hl hse]
    simp only [Option.some.injEq, Bool.or_eq_true] at ht ⊢
    rcases ht with (hm | hm) | hm
    · exact Or.inl (Or.inl (matchesTerm_mono hst hm))
    · exact Or.inl (Or.inr (parentMatch_mono hst hm))
    · exact Or.inr (childMatch_mono hst hm)

theorem visibility_antitone_in_search_term_witness :
    findSub "ca".data "cache".data = true ∧
      validRef sampleTree (.child 0 0) = true ∧
      on_search_changed_filter sampleTree (.child 0 0) "cache".data = some true ∧
      on_search_changed_filter sampleTree (.child 0 0) "ca".data = some true :=
  ⟨by decide, by decide, by decide,
    visibility_antitone_in_search_term sampleTree (.child 0 0) "ca".data "cache".data
      (by decide) (by decide) (by decide)⟩

theorem childless_category_visible_iff_self_match_witness :
    sampleTree.get? 1 = some systemNode ∧ systemNode.children = [] ∧
      on_search_changed_filter sampleTree (.root 1) "sys".data =
        some (matchesTerm "sys".data systemNode.label) :=
  ⟨by decide, by decide,
    childless_category_visible_iff_self_match sampleTree 1 systemNode "sys".data
      (by decide) (by decide)⟩
